import Mathlib

/-!
Shallow embedding of the generated ClickHouse client of the zonder
repository (src/lib/envio/generateClickHouseClient.ts, the template string
returned by generateClickHouseClient).  The embedding models:

* the per-table analytics store (`DB`, `Table`, `Row`) and the watermark
  reader `getClickHouseMaxBlocks` built on `getAllEventTables`;
* the orphan remover `deleteBlocksAfter` with its selective count step;
* the reconciler loop of `initializeClickHouse` (`classify`,
  `chainDeleteTarget`, `reconcilePass`);
* the batch accumulator and writer (`writeToClickHouse`, `flushBatch`)
  with an insert-outcome oracle standing for the destination store;
* the process-store watermark reader `getPgWatermarks` with its
  undefined-table (42P01) handling;
* the startup IIFE and the periodic reconciliation wrapper.
-/

namespace Zonder

/-! ### List maximum helpers -/

/-- Maximum of a list of naturals, 0 on the empty list (matches SQL MAX
grouped over a non-empty group; the 0 default mirrors the `|| 0` fallback
used by the reconciler). -/
def listMax (l : List Nat) : Nat := l.foldl max 0

theorem foldl_max_acc (l : List Nat) (a : Nat) :
    l.foldl max a = max a (listMax l) := by
  induction l generalizing a with
  | nil => simp [listMax]
  | cons b l ih =>
    show (l.foldl max (max a b)) = max a (listMax (b :: l))
    rw [ih (max a b)]
    show max (max a b) (listMax l) = max a (l.foldl max (max 0 b))
    rw [ih (max 0 b)]
    simp [Nat.max_assoc]

theorem listMax_nil : listMax [] = 0 := rfl

theorem listMax_cons (a : Nat) (l : List Nat) :
    listMax (a :: l) = max a (listMax l) := by
  show (l.foldl max (max 0 a)) = max a (listMax l)
  rw [foldl_max_acc]
  simp

theorem listMax_append (l₁ l₂ : List Nat) :
    listMax (l₁ ++ l₂) = max (listMax l₁) (listMax l₂) := by
  induction l₁ with
  | nil => simp [listMax_nil]
  | cons a l ih =>
    simp only [List.cons_append, listMax_cons, ih, Nat.max_assoc]

theorem listMax_le_iff (l : List Nat) (b : Nat) :
    listMax l ≤ b ↔ ∀ x ∈ l, x ≤ b := by
  induction l with
  | nil => simp [listMax_nil]
  | cons a l ih =>
    simp [listMax_cons, ih]

theorem le_listMax_of_mem {x : Nat} {l : List Nat} (h : x ∈ l) :
    x ≤ listMax l := by
  induction l with
  | nil => cases h
  | cons a l ih =>
    rw [listMax_cons]
    rcases List.mem_cons.mp h with rfl | h
    · exact Nat.le_max_left _ _
    · exact Nat.le_trans (ih h) (Nat.le_max_right _ _)

theorem listMax_le_of_subset {l l₂ : List Nat}
    (h : ∀ x ∈ l, x ∈ l₂) : listMax l ≤ listMax l₂ := by
  rw [listMax_le_iff]
  exact fun x hx => le_listMax_of_mem (h x hx)

theorem listMax_flatten (L : List (List Nat)) :
    listMax L.flatten = listMax (L.map listMax) := by
  induction L with
  | nil => rfl
  | cons l L ih =>
    simp [List.flatten, listMax_append, listMax_cons, ih]

/-! ### Data model -/

/-- A row of an analytics-store event table: every generated event table
carries a `chain_id` and a `block_number` column (the other event fields do
not matter for reconciliation). -/
structure Row where
  chain_id : Nat
  block_number : Nat
deriving DecidableEq

/-- A ClickHouse table: its name, its engine string, and its rows. -/
structure Table where
  name : String
  engine : String
  rows : List Row
deriving DecidableEq

/-- The analytics database: the list of its tables. -/
abbrev DB := List Table

/-- Character-list version of `startsWith`. -/
def charsBeginWith : List Char → List Char → Bool
  | [], _ => true
  | _ :: _, [] => false
  | p :: ps, h :: hs => p == h && charsBeginWith ps hs

/-- Does `pat` occur as a contiguous run inside the second list? -/
def charsContain (pat : List Char) : List Char → Bool
  | [] => pat.isEmpty
  | c :: hs => charsBeginWith pat (c :: hs) || charsContain pat hs

/-- SQL `LIKE '%MergeTree%'`: the pattern occurs somewhere in the string. -/
def likeContains (hay pat : String) : Bool := charsContain pat.toList hay.toList

/-- SQL `name LIKE '.%'`: the name begins with a dot. -/
def nameStartsWithDot (n : String) : Bool :=
  match n.toList with
  | [] => false
  | c :: _ => c == '.'

/-- Filter of `getAllEventTables` in the generated client: tables whose
name is not dot-prefixed and whose engine contains MergeTree. -/
def isEventTable (t : Table) : Bool :=
  !nameStartsWithDot t.name && likeContains t.engine "MergeTree"

/-- getAllEventTables: the destination tables matching the naming/engine
convention (the source returns their names; the embedding resolves the
names, which are unique in a database, to the tables themselves). -/
def getAllEventTables (db : DB) : List Table := db.filter isEventTable

/-! ### Analytics-store watermark reader -/

/-- Distinct chain ids appearing in a table (the GROUP BY keys). -/
def chainsOf (t : Table) : List Nat := (t.rows.map Row.chain_id).dedup

/-- Per-table `MAX(block_number) ... WHERE chain_id = c`. -/
def maxBlockIn (t : Table) (c : Nat) : Nat :=
  listMax ((t.rows.filter (fun r => r.chain_id == c)).map Row.block_number)

/-- Per-table `SELECT chain_id, MAX(block_number) GROUP BY chain_id`. -/
def tableChainMaxes (t : Table) : List (Nat × Nat) :=
  (chainsOf t).map (fun c => (c, maxBlockIn t c))

/-- The UNION ALL of the per-table per-chain maxima. -/
def allMaxes (db : DB) : List (Nat × Nat) :=
  ((getAllEventTables db).map tableChainMaxes).flatten

/-- SQL `SELECT chain_id, MAX(max_block) FROM all_maxes GROUP BY chain_id`. -/
def groupMaxByChain (l : List (Nat × Nat)) : List (Nat × Nat) :=
  ((l.map Prod.fst).dedup).map
    (fun c => (c, listMax ((l.filter (fun p => p.1 == c)).map Prod.snd)))

/-- getClickHouseMaxBlocks: per-chain maximum written block across every
event table; empty when there are no event tables. -/
def getClickHouseMaxBlocks (db : DB) : List (Nat × Nat) :=
  groupMaxByChain (allMaxes db)

/-- Lookup in an association list with a default (a JS record access with
fallback). -/
def lookupD (m : List (Nat × Nat)) (k d : Nat) : Nat :=
  match m.find? (fun p => p.1 == k) with
  | some p => p.2
  | none => d

/-- JS `v || d` on numbers: 0 is falsy. -/
def jsOr (v d : Nat) : Nat := if v = 0 then d else v

/-- `chMaxBlocks[chainId] || 0` in the reconciler. -/
def chMaxOf (db : DB) (c : Nat) : Nat := lookupD (getClickHouseMaxBlocks db) c 0

/-- `pgChainHeads[chainId] || pgWatermark` in the reconciler. -/
def headDefault (heads : List (Nat × Nat)) (c pg : Nat) : Nat :=
  jsOr (lookupD heads c 0) pg

/-! ### Orphan remover -/

/-- Per-table count of rows with `chain_id = c AND block_number > s`
(the selective-reconciliation count query of deleteBlocksAfter). -/
def orphanCount (t : Table) (c s : Nat) : Nat :=
  (t.rows.filter (fun r => r.chain_id == c && decide (s < r.block_number))).length

/-- The tables deleteBlocksAfter will issue DELETEs against: event tables
whose orphan count is non-zero. -/
def tablesToClean (db : DB) (c s : Nat) : List String :=
  ((((getAllEventTables db).map (fun t => (t.name, orphanCount t c s))).filter
    (fun p => decide (0 < p.2))).map Prod.fst)

/-- Per-table action of deleteBlocksAfter: an event table with a non-zero
orphan count loses its rows with `chain_id = c AND block_number > s`; any
other table is left untouched. -/
def deleteFromTable (c s : Nat) (t : Table) : Table :=
  if isEventTable t && decide (0 < orphanCount t c s) then
    { t with rows :=
        t.rows.filter (fun r => !(r.chain_id == c && decide (s < r.block_number))) }
  else t

/-- deleteBlocksAfter: apply the selective per-table delete across the
store. -/
def deleteBlocksAfter (db : DB) (c s : Nat) : DB :=
  db.map (deleteFromTable c s)

/-! ### Reconciler -/

/-- The five per-chain reconciliation decisions named by the spec. -/
inductive ReconciliationDecision where
  | InSync
  | OrphanBeyondHead
  | OrphanConfirmed
  | OrphanWithinReorgWindow
  | BehindWillReprocess
deriving DecidableEq

/-- Per-chain classification of initializeClickHouse, with
`safeThreshold = head - thr` computed in integers exactly as the JS code
does. -/
def classify (pg ch head thr : Nat) : ReconciliationDecision :=
  if pg < ch then
    if head < ch then .OrphanBeyondHead
    else if (ch : Int) ≤ (head : Int) - (thr : Int) then .OrphanConfirmed
    else .OrphanWithinReorgWindow
  else if ch < pg then .BehindWillReprocess
  else .InSync

/-- The delete action initializeClickHouse takes for a chain: `some pg`
when it calls `deleteBlocksAfter(chainId, pgWatermark)`, `none` when it
only logs. -/
def chainDeleteTarget (pg ch head thr : Nat) : Option Nat :=
  if pg < ch then
    if head < ch then some pg
    else if (ch : Int) ≤ (head : Int) - (thr : Int) then some pg
    else none
  else none

/-- One iteration of the reconciler loop for the watermark entry `p`:
the classification reads the snapshots taken before the loop (`db`,
`heads`), the delete mutates the accumulated store. -/
def reconcileStep (db : DB) (heads : List (Nat × Nat)) (thr : Nat)
    (acc : DB) (p : Nat × Nat) : DB :=
  match chainDeleteTarget p.2 (chMaxOf db p.1) (headDefault heads p.1 p.2) thr with
  | some sb => deleteBlocksAfter acc p.1 sb
  | none => acc

/-- One reconciliation pass of initializeClickHouse: iterate over the
process-store watermark entries, deleting where the classification says
so. -/
def reconcilePass (db : DB) (wms heads : List (Nat × Nat)) (thr : Nat) : DB :=
  wms.foldl (reconcileStep db heads thr) db

/-! ### Batch accumulator and writer -/

/-- The batch accumulator content: destination table name to pending rows
(`currentBatch` in the generated client, as an ordered association list). -/
abbrev Buffers := List (String × List Row)

/-- `if (!currentBatch[t]) currentBatch[t] = []; currentBatch[t].push(r)`. -/
def addToBatch (bufs : Buffers) (table : String) (r : Row) : Buffers :=
  if bufs.any (fun p => p.1 == table) then
    bufs.map (fun p => if p.1 == table then (p.1, p.2 ++ [r]) else p)
  else bufs ++ [(table, [r])]

/-- The tables flushBatch issues an insert for: the buckets it does not
skip with the `events.length === 0` early return. -/
def insertsIssued (bufs : Buffers) : List String :=
  (bufs.filter (fun p => !p.2.isEmpty)).map Prod.fst

/-- A bulk insert into the destination store: append the rows to every
table carrying that name. -/
def insertRows (db : DB) (table : String) (rows : List Row) : DB :=
  db.map (fun t => if t.name == table then { t with rows := t.rows ++ rows } else t)

/-- Effect of the fan-out of inserts on the destination store, given an
oracle `ok` saying which tables' inserts succeed: every non-empty bucket
whose insert succeeds lands, independently of the other buckets. -/
def applyFlushInserts (db : DB) (bufs : Buffers) (ok : String → Bool) : DB :=
  bufs.foldl (fun acc p => if !p.2.isEmpty && ok p.1 then insertRows acc p.1 p.2 else acc) db

/-- Outcome of `Promise.all` over the issued inserts: ok iff every issued
insert succeeded. -/
def flushOutcome (bufs : Buffers) (ok : String → Bool) : Except String Unit :=
  if (insertsIssued bufs).all ok then .ok () else .error "insert failed"

/-- All rows of the tables named `n` in the destination store. -/
def rowsIn (db : DB) (n : String) : List Row :=
  ((db.filter (fun t => t.name == n)).map Table.rows).flatten

/-- Accumulator state: `currentBatch` and `batchEventCount`. -/
structure AccState where
  batch : Buffers
  count : Nat
deriving DecidableEq

/-- flushBatch: early-return when the count is 0; otherwise swap the
accumulator for an empty one BEFORE the inserts run, apply the inserts,
and report the aggregate outcome (re-raised on failure, with no restore of
the swapped-out records). -/
def flushBatch (s : AccState) (db : DB) (ok : String → Bool) :
    AccState × DB × Except String Unit :=
  if s.count = 0 then (s, db, .ok ())
  else (⟨[], 0⟩, applyFlushInserts db s.batch ok, flushOutcome s.batch ok)

/-- Result of one `writeToClickHouse` handler invocation. -/
structure AcceptResult where
  state : AccState
  db : DB
  result : Except String Unit
  flushed : Bool

/-- The writeToClickHouse effect handler: push the record into its bucket,
bump the count, and when the count reaches the threshold await flushBatch;
an error of that awaited flush propagates out of the handler. -/
def writeToClickHouse (thr : Nat) (s : AccState) (db : DB) (ok : String → Bool)
    (table : String) (r : Row) : AcceptResult :=
  let batch2 := addToBatch s.batch table r
  let count2 := s.count + 1
  if thr ≤ count2 then
    let out := flushBatch ⟨batch2, count2⟩ db ok
    ⟨out.1, out.2.1, out.2.2, true⟩
  else ⟨⟨batch2, count2⟩, db, .ok (), false⟩

/-- Drive a sequence of records through the accumulator, counting the
automatic flushes that were triggered. -/
def runAccepts (thr : Nat) (start : AccState × DB × Nat) (ok : String → Bool)
    (records : List (String × Row)) : AccState × DB × Nat :=
  records.foldl
    (fun acc rec =>
      let out := writeToClickHouse thr acc.1 acc.2.1 ok rec.1 rec.2
      (out.state, out.db, acc.2.2 + (if out.flushed then 1 else 0)))
    start

/-! ### Process-store watermark reader -/

/-- The grouped watermark query against the process store: `42P01` is the
undefined-table error raised when `end_of_block_range_scanned_data` does
not exist yet. -/
def pgQueryScanned (tableExists : Bool) (rows : List (Nat × Nat)) :
    Except String (List (Nat × Nat)) :=
  if tableExists then .ok rows else .error "42P01"

/-- SQL `SELECT chain_id, MAX(block_number) GROUP BY chain_id` over the
scanned-range rows. -/
def aggregateWatermarks (rows : List (Nat × Nat)) : List (Nat × Nat) :=
  groupMaxByChain rows

/-- getPgWatermarks: run the grouped query; on the undefined-table error
code return the empty mapping, re-raise anything else. -/
def getPgWatermarks (tableExists : Bool) (rows : List (Nat × Nat)) :
    Except String (List (Nat × Nat)) :=
  match pgQueryScanned tableExists rows with
  | .ok rs => .ok (aggregateWatermarks rs)
  | .error code => if code == "42P01" then .ok [] else .error code

/-! ### Scheduler: startup and periodic reconciliation -/

/-- Observable fate of the process after the auto-initialize IIFE. -/
inductive ProcessStatus where
  | running
  | exited (code : Nat)
deriving DecidableEq

/-- The auto-initialize IIFE: await initializeClickHouse; on success keep
running (and start the periodic timer when enabled), on any error call
`process.exit(1)`. -/
def autoInitialize (recon : Except String DB) : ProcessStatus :=
  match recon with
  | .ok _ => .running
  | .error _ => .exited 1

/-- One periodic timer tick: the interval callback awaits
initializeClickHouse inside try/catch and swallows any error, so the tick
itself never propagates one. -/
def periodicTick (recon : Except String DB) : Except String Unit :=
  match recon with
  | .ok _ => .ok ()
  | .error _ => .ok ()

/-! ### Characterization of the analytics watermark reader -/

/-- All block numbers written for chain `c` across every event table. -/
def chainBlocksIn (db : DB) (c : Nat) : List Nat :=
  ((getAllEventTables db).map
    (fun t => (t.rows.filter (fun r => r.chain_id == c)).map Row.block_number)).flatten

/-- Spec-side watermark for C6: the maximum block number over every
destination table containing rows of the chain. -/
def specChainWatermark (db : DB) (c : Nat) : Nat := listMax (chainBlocksIn db c)

theorem find?_map_key (ks : List Nat) (g : Nat → Nat) (c : Nat) (h : c ∈ ks) :
    (ks.map (fun k => (k, g k))).find? (fun p => p.1 == c) = some (c, g c) := by
  induction ks with
  | nil => cases h
  | cons k ks ih =>
    rw [List.map_cons]
    by_cases hk : k = c
    · subst hk
      rw [List.find?_cons_of_pos _ (by simp)]
    · rw [List.find?_cons_of_neg _ (by simp [hk])]
      rcases List.mem_cons.mp h with rfl | h2
      · exact absurd rfl hk
      · exact ih h2

theorem find?_map_key_none (ks : List Nat) (g : Nat → Nat) (c : Nat) (h : c ∉ ks) :
    (ks.map (fun k => (k, g k))).find? (fun p => p.1 == c) = none := by
  induction ks with
  | nil => rfl
  | cons k ks ih =>
    have hk : k ≠ c := fun e => h (e ▸ List.mem_cons_self k ks)
    have h2 : c ∉ ks := fun e => h (List.mem_cons_of_mem _ e)
    rw [List.map_cons, List.find?_cons_of_neg _ (by simp [hk])]
    exact ih h2

theorem groupMax_lookupD (l : List (Nat × Nat)) (c : Nat) :
    lookupD (groupMaxByChain l) c 0 =
      listMax ((l.filter (fun p => p.1 == c)).map Prod.snd) := by
  unfold lookupD groupMaxByChain
  by_cases h : c ∈ (l.map Prod.fst).dedup
  · rw [find?_map_key _ _ _ h]
  · rw [find?_map_key_none _ _ _ h]
    have hnot : ∀ p ∈ l, p.1 ≠ c := by
      intro p hp he
      exact h (List.mem_dedup.mpr (List.mem_map.mpr ⟨p, hp, he⟩))
    have : l.filter (fun p => p.1 == c) = [] := by
      rw [List.filter_eq_nil_iff]
      intro p hp
      simpa using hnot p hp
    rw [this]
    rfl

theorem filter_map_eq {α β : Type} (l : List α) (g : α → β) (p : β → Bool) :
    (l.map g).filter p = (l.filter (fun x => p (g x))).map g := by
  induction l with
  | nil => rfl
  | cons a l ih =>
    by_cases h : p (g a)
    · simp [List.filter, h, ih]
    · simp [List.filter, h, ih]

theorem filter_beq_of_nodup (l : List Nat) (c : Nat) (h : l.Nodup) :
    l.filter (fun k => k == c) = if c ∈ l then [c] else [] := by
  induction l with
  | nil => simp
  | cons a l ih =>
    have ha : a ∉ l := (List.nodup_cons.mp h).1
    have hl : l.Nodup := (List.nodup_cons.mp h).2
    by_cases hac : a = c
    · subst hac
      rw [List.filter_cons_of_pos (by simp), ih hl]
      simp [ha, List.mem_cons]
    · rw [List.filter_cons_of_neg (by simp [hac]), ih hl]
      have hca : c ≠ a := fun e => hac e.symm
      simp [List.mem_cons, hca]

theorem filter_flatten_eq {α : Type} (L : List (List α)) (p : α → Bool) :
    L.flatten.filter p = (L.map (fun l => l.filter p)).flatten := by
  induction L with
  | nil => rfl
  | cons l L ih =>
    simp [List.flatten, List.filter_append, ih]

theorem maxBlockIn_eq_zero_of_not_mem (t : Table) (c : Nat)
    (h : c ∉ chainsOf t) : maxBlockIn t c = 0 := by
  have hnot : ∀ r ∈ t.rows, r.chain_id ≠ c := by
    intro r hr he
    exact h (List.mem_dedup.mpr (List.mem_map.mpr ⟨r, hr, he⟩))
  unfold maxBlockIn
  have : t.rows.filter (fun r => r.chain_id == c) = [] := by
    rw [List.filter_eq_nil_iff]
    intro r hr
    simpa using hnot r hr
  rw [this]
  rfl

theorem chainsOf_nodup (t : Table) : (chainsOf t).Nodup := by
  unfold chainsOf
  exact List.nodup_dedup _

theorem filter_tableChainMaxes (t : Table) (c : Nat) :
    (tableChainMaxes t).filter (fun p => p.1 == c) =
      if c ∈ chainsOf t then [(c, maxBlockIn t c)] else [] := by
  unfold tableChainMaxes
  rw [filter_map_eq]
  have he : (fun x => ((x, maxBlockIn t x).1 == c)) = (fun k : Nat => k == c) := rfl
  rw [he, filter_beq_of_nodup _ _ (chainsOf_nodup t)]
  by_cases h : c ∈ chainsOf t
  · simp [h]
  · simp [h]

/-- Master characterization: the value the reconciler reads for a chain
from getClickHouseMaxBlocks (with its `|| 0` default) is exactly the
maximum block number over all rows of that chain in event tables. -/
theorem chMaxOf_eq_spec (db : DB) (c : Nat) :
    chMaxOf db c = specChainWatermark db c := by
  unfold chMaxOf getClickHouseMaxBlocks specChainWatermark chainBlocksIn
  rw [groupMax_lookupD]
  unfold allMaxes
  rw [filter_flatten_eq, List.map_flatten, listMax_flatten, listMax_flatten]
  simp only [List.map_map]
  congr 1
  apply List.map_congr_left
  intro t ht
  by_cases h : c ∈ chainsOf t
  · simp [Function.comp, filter_tableChainMaxes, h, listMax_cons, listMax_nil, maxBlockIn]
  · have h0 : maxBlockIn t c = 0 := maxBlockIn_eq_zero_of_not_mem t c h
    unfold maxBlockIn at h0
    simp [Function.comp, filter_tableChainMaxes, h, listMax_nil, h0]

/-! ### Facts about the orphan remover -/

theorem mem_chainBlocksIn {db : DB} {c x : Nat} :
    x ∈ chainBlocksIn db c ↔
      ∃ t, t ∈ db ∧ isEventTable t = true ∧
        ∃ r, r ∈ t.rows ∧ r.chain_id = c ∧ r.block_number = x := by
  unfold chainBlocksIn getAllEventTables
  constructor
  · intro hx
    rcases List.mem_flatten.mp hx with ⟨l, hl, hxl⟩
    rcases List.mem_map.mp hl with ⟨t, ht, rfl⟩
    rcases List.mem_map.mp hxl with ⟨r, hr, rfl⟩
    rcases List.mem_filter.mp hr with ⟨hr2, hrc⟩
    rcases List.mem_filter.mp ht with ⟨ht2, hte⟩
    exact ⟨t, ht2, hte, r, hr2, by simpa using hrc, rfl⟩
  · rintro ⟨t, ht, hte, r, hr, hrc, rfl⟩
    apply List.mem_flatten.mpr
    refine ⟨_, List.mem_map.mpr ⟨t, List.mem_filter.mpr ⟨ht, hte⟩, rfl⟩, ?_⟩
    exact List.mem_map.mpr ⟨r, List.mem_filter.mpr ⟨hr, by simpa using hrc⟩, rfl⟩

theorem isEventTable_deleteFromTable (c s : Nat) (t : Table) :
    isEventTable (deleteFromTable c s t) = isEventTable t := by
  unfold deleteFromTable
  split
  · rfl
  · rfl

theorem rows_deleteFromTable_subset {c s : Nat} {t : Table} {r : Row}
    (h : r ∈ (deleteFromTable c s t).rows) : r ∈ t.rows := by
  unfold deleteFromTable at h
  split at h
  · exact (List.mem_filter.mp h).1
  · exact h

theorem rows_deleteFromTable_bound {c s : Nat} {t : Table} {r : Row}
    (hev : isEventTable t = true)
    (h : r ∈ (deleteFromTable c s t).rows) (hc : r.chain_id = c) :
    r.block_number ≤ s := by
  unfold deleteFromTable at h
  split at h
  · have := (List.mem_filter.mp h).2
    simp [hc] at this
    exact this
  · rename_i hcond
    have hcnt : orphanCount t c s = 0 := by
      by_cases h0 : 0 < orphanCount t c s
      · exact absurd (by simp [hev, h0]) hcond
      · omega
    have hnil : t.rows.filter
        (fun r => r.chain_id == c && decide (s < r.block_number)) = [] := by
      have := List.length_eq_zero.mp hcnt
      exact this
    have hr2 := List.filter_eq_nil_iff.mp hnil r h
    simp [hc] at hr2
    exact hr2

theorem chMaxOf_delete_le (db : DB) (c0 s c : Nat) :
    chMaxOf (deleteBlocksAfter db c0 s) c ≤ chMaxOf db c := by
  rw [chMaxOf_eq_spec, chMaxOf_eq_spec]
  unfold specChainWatermark
  apply listMax_le_of_subset
  intro x hx
  rcases mem_chainBlocksIn.mp hx with ⟨t2, ht2, hte, r, hr, hrc, hrb⟩
  rcases List.mem_map.mp ht2 with ⟨t, ht, rfl⟩
  rw [isEventTable_deleteFromTable] at hte
  exact mem_chainBlocksIn.mpr
    ⟨t, ht, hte, r, rows_deleteFromTable_subset hr, hrc, hrb⟩

theorem chMaxOf_delete_self_le (db : DB) (c s : Nat) :
    chMaxOf (deleteBlocksAfter db c s) c ≤ s := by
  rw [chMaxOf_eq_spec]
  unfold specChainWatermark
  rw [listMax_le_iff]
  intro x hx
  rcases mem_chainBlocksIn.mp hx with ⟨t2, ht2, hte, r, hr, hrc, hrb⟩
  rcases List.mem_map.mp ht2 with ⟨t, ht, rfl⟩
  rw [isEventTable_deleteFromTable] at hte
  rw [← hrb]
  exact rows_deleteFromTable_bound hte hr hrc

theorem orphanCount_delete_zero {c s : Nat} {t : Table}
    (hev : isEventTable t = true) :
    orphanCount (deleteFromTable c s t) c s = 0 := by
  unfold deleteFromTable
  split
  · unfold orphanCount
    simp only [List.filter_filter]
    rw [List.length_eq_zero, List.filter_eq_nil_iff]
    intro r hr
    cases h : (r.chain_id == c && decide (s < r.block_number)) <;> simp [h]
  · rename_i hcond
    have h0 : ¬ 0 < orphanCount t c s := by
      intro h0
      exact hcond (by simp [hev, h0])
    omega

theorem deleteFromTable_of_count_zero {c s : Nat} {t : Table}
    (h0 : orphanCount t c s = 0) : deleteFromTable c s t = t := by
  unfold deleteFromTable
  simp [h0]

theorem deleteFromTable_of_not_event {c s : Nat} {t : Table}
    (h : isEventTable t = false) : deleteFromTable c s t = t := by
  unfold deleteFromTable
  simp [h]

theorem deleteFromTable_idem (c s : Nat) (t : Table) :
    deleteFromTable c s (deleteFromTable c s t) = deleteFromTable c s t := by
  by_cases hev : isEventTable t = true
  · exact deleteFromTable_of_count_zero (orphanCount_delete_zero hev)
  · have h1 : deleteFromTable c s t = t :=
      deleteFromTable_of_not_event (Bool.not_eq_true _ ▸ hev)
    rw [h1, h1]

/-! ### Facts about the reconciler -/

theorem target_cases (pg ch head thr : Nat)
    (h : classify pg ch head thr ≠ .OrphanWithinReorgWindow) :
    chainDeleteTarget pg ch head thr = some pg ∨
      (chainDeleteTarget pg ch head thr = none ∧ ch ≤ pg) := by
  unfold classify at h
  unfold chainDeleteTarget
  by_cases h1 : pg < ch
  · by_cases h2 : head < ch
    · left
      simp [h1, h2]
    · by_cases h3 : (ch : Int) ≤ (head : Int) - (thr : Int)
      · left
        simp [h1, h2, h3]
      · exact absurd (by simp [h1, h2, h3]) h
  · right
    exact ⟨by simp [h1], by omega⟩

theorem chMaxOf_reconcileStep_le (db : DB) (heads : List (Nat × Nat)) (thr : Nat)
    (acc : DB) (p : Nat × Nat) (c : Nat) :
    chMaxOf (reconcileStep db heads thr acc p) c ≤ chMaxOf acc c := by
  unfold reconcileStep
  cases htg : chainDeleteTarget p.2 (chMaxOf db p.1) (headDefault heads p.1 p.2) thr with
  | none => exact Nat.le_refl _
  | some sb => exact chMaxOf_delete_le acc p.1 sb c

theorem chMaxOf_reconcileFold_le (db : DB) (heads : List (Nat × Nat)) (thr : Nat)
    (l : List (Nat × Nat)) (acc : DB) (c : Nat) :
    chMaxOf (l.foldl (reconcileStep db heads thr) acc) c ≤ chMaxOf acc c := by
  induction l generalizing acc with
  | nil => exact Nat.le_refl _
  | cons p l ih =>
    exact Nat.le_trans (ih (reconcileStep db heads thr acc p))
      (chMaxOf_reconcileStep_le db heads thr acc p c)

/-! ### Facts about the writer and the flush path -/

theorem applyFlushInserts_cons (db : DB) (p : String × List Row) (bufs : Buffers)
    (ok : String → Bool) :
    applyFlushInserts db (p :: bufs) ok =
      applyFlushInserts (if !p.2.isEmpty && ok p.1 then insertRows db p.1 p.2 else db)
        bufs ok := rfl

theorem applyFlushInserts_append (db : DB) (l1 l2 : Buffers) (ok : String → Bool) :
    applyFlushInserts db (l1 ++ l2) ok =
      applyFlushInserts (applyFlushInserts db l1 ok) l2 ok := by
  unfold applyFlushInserts
  rw [List.foldl_append]

theorem name_insertRows (db : DB) (tb : String) (rows : List Row) :
    (insertRows db tb rows).map Table.name = db.map Table.name := by
  unfold insertRows
  rw [List.map_map]
  apply List.map_congr_left
  intro t _
  simp only [Function.comp_apply]
  split
  · rfl
  · rfl

theorem exists_name_insertRows {db : DB} {n : String}
    (h : ∃ t ∈ db, t.name = n) (tb : String) (rows : List Row) :
    ∃ t ∈ insertRows db tb rows, t.name = n := by
  rcases h with ⟨t, ht, htn⟩
  have h1 : n ∈ db.map Table.name := List.mem_map.mpr ⟨t, ht, htn⟩
  have h2 : n ∈ (insertRows db tb rows).map Table.name := by
    rw [name_insertRows]
    exact h1
  rcases List.mem_map.mp h2 with ⟨t2, ht2, ht2n⟩
  exact ⟨t2, ht2, ht2n⟩

theorem exists_name_applyFlushInserts {db : DB} {n : String}
    (h : ∃ t ∈ db, t.name = n) (bufs : Buffers) (ok : String → Bool) :
    ∃ t ∈ applyFlushInserts db bufs ok, t.name = n := by
  induction bufs generalizing db with
  | nil => exact h
  | cons p bufs ih =>
    rw [applyFlushInserts_cons]
    apply ih
    by_cases hc : (!p.2.isEmpty && ok p.1) = true
    · rw [if_pos hc]
      exact exists_name_insertRows h p.1 p.2
    · rw [if_neg hc]
      exact h

theorem mem_rowsIn_insertRows {db : DB} {n : String} {r : Row}
    (h : r ∈ rowsIn db n) (tb : String) (rows : List Row) :
    r ∈ rowsIn (insertRows db tb rows) n := by
  unfold rowsIn at h ⊢
  rcases List.mem_flatten.mp h with ⟨l, hl, hr⟩
  rcases List.mem_map.mp hl with ⟨t, ht, rfl⟩
  rcases List.mem_filter.mp ht with ⟨htdb, htn⟩
  unfold insertRows
  by_cases hcase : (t.name == tb) = true
  · apply List.mem_flatten.mpr
    refine ⟨t.rows ++ rows, ?_, List.mem_append_left _ hr⟩
    apply List.mem_map.mpr
    refine ⟨{ t with rows := t.rows ++ rows }, ?_, rfl⟩
    apply List.mem_filter.mpr
    exact ⟨List.mem_map.mpr ⟨t, htdb, by rw [if_pos hcase]⟩, htn⟩
  · apply List.mem_flatten.mpr
    refine ⟨t.rows, ?_, hr⟩
    apply List.mem_map.mpr
    refine ⟨t, ?_, rfl⟩
    apply List.mem_filter.mpr
    exact ⟨List.mem_map.mpr ⟨t, htdb, by rw [if_neg hcase]⟩, htn⟩

theorem mem_rowsIn_insertRows_self {db : DB} {tb : String} {r : Row}
    {rows : List Row} (hex : ∃ t ∈ db, t.name = tb) (hr : r ∈ rows) :
    r ∈ rowsIn (insertRows db tb rows) tb := by
  rcases hex with ⟨t, ht, htn⟩
  unfold rowsIn insertRows
  apply List.mem_flatten.mpr
  refine ⟨t.rows ++ rows, ?_, List.mem_append_right _ hr⟩
  apply List.mem_map.mpr
  refine ⟨{ t with rows := t.rows ++ rows }, ?_, rfl⟩
  apply List.mem_filter.mpr
  refine ⟨List.mem_map.mpr ⟨t, ht, by rw [if_pos (by simp [htn])]⟩, by simp [htn]⟩

theorem mem_rowsIn_applyFlushInserts {db : DB} {n : String} {r : Row}
    (h : r ∈ rowsIn db n) (bufs : Buffers) (ok : String → Bool) :
    r ∈ rowsIn (applyFlushInserts db bufs ok) n := by
  induction bufs generalizing db with
  | nil => exact h
  | cons p bufs ih =>
    rw [applyFlushInserts_cons]
    apply ih
    by_cases hc : (!p.2.isEmpty && ok p.1) = true
    · rw [if_pos hc]
      exact mem_rowsIn_insertRows h p.1 p.2
    · rw [if_neg hc]
      exact h

theorem mem_insertsIssued (bufs : Buffers) (tb : String) :
    tb ∈ insertsIssued bufs ↔ ∃ rows, (tb, rows) ∈ bufs ∧ rows ≠ [] := by
  unfold insertsIssued
  constructor
  · intro h
    rcases List.mem_map.mp h with ⟨p, hp, hfst⟩
    rcases List.mem_filter.mp hp with ⟨hpb, hpe⟩
    refine ⟨p.2, ?_, by simpa using hpe⟩
    rw [← hfst]
    exact hpb
  · rintro ⟨rows, hmem, hne⟩
    apply List.mem_map.mpr
    exact ⟨(tb, rows), List.mem_filter.mpr ⟨hmem, by simpa using hne⟩, rfl⟩

end Zonder

namespace Zonder

/-! ### Claim theorems -/

/-- C1: for every chain of the process-store watermark mapping, one
reconciliation pass classifies and acts exactly as the spec says: the
analytics watermark defaults to 0 for a chain absent there and the head
falls back to the process watermark when unavailable; equal watermarks are
InSync with no action; an analytics watermark behind the process one is
BehindWillReprocess with no action; an analytics watermark ahead is
deleted down to the process watermark when it is beyond the head or at
most `head - threshold`, and is OrphanWithinReorgWindow with no deletion
otherwise; and at head 1000 with threshold 200, chBlock 850 is skipped
while 800 and 1001 are deleted. -/
theorem claim_C1_reconciler_classification (pg ch head thr : Nat) :
    (∀ c, chMaxOf [] c = 0) ∧
    (∀ c, headDefault [] c pg = pg) ∧
    (ch = pg → classify pg ch head thr = .InSync ∧
      chainDeleteTarget pg ch head thr = none) ∧
    (ch < pg → classify pg ch head thr = .BehindWillReprocess ∧
      chainDeleteTarget pg ch head thr = none) ∧
    (pg < ch → head < ch → classify pg ch head thr = .OrphanBeyondHead ∧
      chainDeleteTarget pg ch head thr = some pg) ∧
    (pg < ch → (ch : Int) ≤ (head : Int) - (thr : Int) →
      classify pg ch head thr = .OrphanConfirmed ∧
      chainDeleteTarget pg ch head thr = some pg) ∧
    (pg < ch → (head : Int) - (thr : Int) < (ch : Int) → ch ≤ head →
      classify pg ch head thr = .OrphanWithinReorgWindow ∧
      chainDeleteTarget pg ch head thr = none) ∧
    (classify 500 850 1000 200 = .OrphanWithinReorgWindow ∧
      chainDeleteTarget 500 850 1000 200 = none) ∧
    (classify 500 800 1000 200 = .OrphanConfirmed ∧
      chainDeleteTarget 500 800 1000 200 = some 500) ∧
    (classify 500 1001 1000 200 = .OrphanBeyondHead ∧
      chainDeleteTarget 500 1001 1000 200 = some 500) := by
  refine ⟨fun c => rfl, fun c => rfl, ?_, ?_, ?_, ?_, ?_, ?_, ?_, ?_⟩
  · rintro rfl
    simp [classify, chainDeleteTarget]
  · intro h
    have h2 : ¬ pg < ch := by omega
    simp [classify, chainDeleteTarget, h, h2]
  · intro h1 h2
    simp [classify, chainDeleteTarget, h1, h2]
  · intro h1 h2
    have h3 : ¬ head < ch := by omega
    simp [classify, chainDeleteTarget, h1, h2, h3]
  · intro h1 h2 h3
    have h4 : ¬ head < ch := by omega
    have h5 : ¬ (ch : Int) ≤ (head : Int) - (thr : Int) := by omega
    simp [classify, chainDeleteTarget, h1, h4, h5]
  · exact ⟨by decide, by decide⟩
  · exact ⟨by decide, by decide⟩
  · exact ⟨by decide, by decide⟩

/-- Witness for C1 at concrete inputs: equal watermarks at 700 are
InSync with no delete. -/
theorem claim_C1_witness :
    classify 700 700 1000 200 = ReconciliationDecision.InSync ∧
      chainDeleteTarget 700 700 1000 200 = none :=
  (claim_C1_reconciler_classification 700 700 1000 200).2.2.1 rfl

/-- C2: after a reconciliation pass, every chain of the process-store
watermark list whose classification (against the pass's snapshots) was not
OrphanWithinReorgWindow ends with its analytics watermark at most its
process watermark. -/
theorem claim_C2_watermark_invariant (db : DB) (wms heads : List (Nat × Nat))
    (thr c pg : Nat) (hmem : (c, pg) ∈ wms)
    (hnot : classify pg (chMaxOf db c) (headDefault heads c pg) thr ≠
      ReconciliationDecision.OrphanWithinReorgWindow) :
    chMaxOf (reconcilePass db wms heads thr) c ≤ pg := by
  rcases List.append_of_mem hmem with ⟨l1, l2, rfl⟩
  unfold reconcilePass
  rw [List.foldl_append, List.foldl_cons]
  rcases target_cases pg (chMaxOf db c) (headDefault heads c pg) thr hnot with
    h | ⟨h, hle⟩
  · have hstep : reconcileStep db heads thr (l1.foldl (reconcileStep db heads thr) db)
        (c, pg) = deleteBlocksAfter (l1.foldl (reconcileStep db heads thr) db) c pg := by
      simp [reconcileStep, h]
    rw [hstep]
    exact Nat.le_trans (chMaxOf_reconcileFold_le db heads thr l2 _ c)
      (chMaxOf_delete_self_le _ c pg)
  · have hstep : reconcileStep db heads thr (l1.foldl (reconcileStep db heads thr) db)
        (c, pg) = l1.foldl (reconcileStep db heads thr) db := by
      simp [reconcileStep, h]
    rw [hstep]
    exact Nat.le_trans (chMaxOf_reconcileFold_le db heads thr l2 _ c)
      (Nat.le_trans (chMaxOf_reconcileFold_le db heads thr l1 db c) hle)

/-- Witness for C2: a store holding an orphaned block 300 for chain 1,
process watermark 100, head 1000, threshold 200 (OrphanConfirmed) ends at
most at 100 after the pass. -/
theorem claim_C2_witness :
    chMaxOf (reconcilePass [⟨"evt", "MergeTree", [⟨1, 10⟩, ⟨1, 300⟩]⟩]
      [(1, 100)] [(1, 1000)] 200) 1 ≤ 100 :=
  claim_C2_watermark_invariant [⟨"evt", "MergeTree", [⟨1, 10⟩, ⟨1, 300⟩]⟩]
    [(1, 100)] [(1, 1000)] 200 1 100 (by decide) (by decide)

/-- C6: for a chain with at least one row in some event table, the value
getClickHouseMaxBlocks reports (and the reconciler reads) is exactly the
maximum block number over every event table's rows of that chain, and the
chain is present in the mapping with that value. -/
theorem claim_C6_watermark_max_over_tables (db : DB) (c : Nat)
    (h : chainBlocksIn db c ≠ []) :
    chMaxOf db c = specChainWatermark db c ∧
      (c, specChainWatermark db c) ∈ getClickHouseMaxBlocks db := by
  obtain ⟨x, hx⟩ := List.exists_mem_of_ne_nil _ h
  rcases mem_chainBlocksIn.mp hx with ⟨t, ht, hte, r, hr, hrc, hrb⟩
  have hct : c ∈ chainsOf t := List.mem_dedup.mpr (List.mem_map.mpr ⟨r, hr, hrc⟩)
  have htm : (c, maxBlockIn t c) ∈ tableChainMaxes t := List.mem_map.mpr ⟨c, hct, rfl⟩
  have ham : (c, maxBlockIn t c) ∈ allMaxes db := by
    unfold allMaxes getAllEventTables
    exact List.mem_flatten.mpr
      ⟨_, List.mem_map.mpr ⟨t, List.mem_filter.mpr ⟨ht, hte⟩, rfl⟩, htm⟩
  have hkey : c ∈ ((allMaxes db).map Prod.fst).dedup :=
    List.mem_dedup.mpr (List.mem_map.mpr ⟨_, ham, rfl⟩)
  have hmem2 : (c, listMax (((allMaxes db).filter (fun p => p.1 == c)).map Prod.snd)) ∈
      getClickHouseMaxBlocks db := by
    unfold getClickHouseMaxBlocks groupMaxByChain
    exact List.mem_map.mpr ⟨c, hkey, rfl⟩
  have hval : listMax (((allMaxes db).filter (fun p => p.1 == c)).map Prod.snd) =
      specChainWatermark db c := by
    rw [← groupMax_lookupD]
    exact chMaxOf_eq_spec db c
  exact ⟨chMaxOf_eq_spec db c, hval ▸ hmem2⟩

/-- Witness for C6: two event tables written unevenly for chain 1 (a
partial flush) still yield the max over both tables. -/
theorem claim_C6_witness :
    chainBlocksIn [⟨"evt_a", "MergeTree", [⟨1, 5⟩, ⟨1, 9⟩]⟩,
        ⟨"evt_b", "MergeTree", [⟨1, 7⟩]⟩] 1 ≠ [] ∧
      chMaxOf [⟨"evt_a", "MergeTree", [⟨1, 5⟩, ⟨1, 9⟩]⟩,
        ⟨"evt_b", "MergeTree", [⟨1, 7⟩]⟩] 1 =
        specChainWatermark [⟨"evt_a", "MergeTree", [⟨1, 5⟩, ⟨1, 9⟩]⟩,
          ⟨"evt_b", "MergeTree", [⟨1, 7⟩]⟩] 1 :=
  ⟨by decide, (claim_C6_watermark_max_over_tables _ 1 (by decide)).1⟩

/-- C7: deleteBlocksAfter issues deletes only against event tables whose
count of rows beyond the safe block is non-zero, and it is idempotent: a
repeated call finds no table to clean and leaves the store unchanged. -/
theorem claim_C7_delete_selective_idempotent (db : DB) (c s : Nat) :
    (∀ n ∈ tablesToClean db c s,
      ∃ t, t ∈ getAllEventTables db ∧ t.name = n ∧ 0 < orphanCount t c s) ∧
    tablesToClean (deleteBlocksAfter db c s) c s = [] ∧
    deleteBlocksAfter (deleteBlocksAfter db c s) c s = deleteBlocksAfter db c s := by
  refine ⟨?_, ?_, ?_⟩
  · intro n hn
    unfold tablesToClean at hn
    rcases List.mem_map.mp hn with ⟨p, hp, rfl⟩
    rcases List.mem_filter.mp hp with ⟨hp2, hpos⟩
    rcases List.mem_map.mp hp2 with ⟨t, ht, rfl⟩
    exact ⟨t, ht, rfl, by simpa using hpos⟩
  · unfold tablesToClean
    have hev : getAllEventTables (deleteBlocksAfter db c s) =
        (getAllEventTables db).map (deleteFromTable c s) := by
      unfold getAllEventTables deleteBlocksAfter
      rw [filter_map_eq]
      congr 1
      apply List.filter_congr
      intro t _
      exact isEventTable_deleteFromTable c s t
    rw [hev]
    rw [List.map_map]
    have hz : ∀ p ∈ (getAllEventTables db).map
        ((fun t => (t.name, orphanCount t c s)) ∘ deleteFromTable c s),
        ¬ (decide (0 < p.2) = true) := by
      intro p hp
      rcases List.mem_map.mp hp with ⟨t, ht, rfl⟩
      have hte : isEventTable t = true := (List.mem_filter.mp ht).2
      simp [Function.comp, orphanCount_delete_zero hte]
    rw [List.filter_eq_nil_iff.mpr hz]
    rfl
  · unfold deleteBlocksAfter
    rw [List.map_map]
    apply List.map_congr_left
    intro t _
    exact deleteFromTable_idem c s t

/-- C3: flushBatch issues exactly one bulk insert per non-empty table
bucket (no duplicates given the record's unique keys, and an insert iff
the bucket is non-empty), its aggregate result is ok iff every issued
insert succeeded and an error as soon as one insert fails, and the rows of
a bucket whose insert succeeded stay in the destination store even when
the aggregate rejects (no cross-table rollback). -/
theorem claim_C3_writer_fan_out (bufs : Buffers) (db : DB) (ok : String → Bool) :
    (∀ tb, tb ∈ insertsIssued bufs ↔ ∃ rows, (tb, rows) ∈ bufs ∧ rows ≠ []) ∧
    ((bufs.map Prod.fst).Nodup → (insertsIssued bufs).Nodup) ∧
    (flushOutcome bufs ok = .ok () ↔ ∀ tb ∈ insertsIssued bufs, ok tb = true) ∧
    ((∃ tb ∈ insertsIssued bufs, ok tb = false) →
      flushOutcome bufs ok = .error "insert failed") ∧
    (∀ tb rows r, (tb, rows) ∈ bufs → ok tb = true → r ∈ rows →
      (∃ t ∈ db, t.name = tb) → r ∈ rowsIn (applyFlushInserts db bufs ok) tb) := by
  refine ⟨mem_insertsIssued bufs, ?_, ?_, ?_, ?_⟩
  · intro h
    exact h.sublist ((List.filter_sublist _).map _)
  · unfold flushOutcome
    by_cases hall : (insertsIssued bufs).all ok = true
    · simp only [hall, if_pos]
      simp only [List.all_eq_true] at hall
      simp only [true_iff, eq_self_iff_true]
      exact hall
    · rw [if_neg hall]
      simp only [List.all_eq_true] at hall
      constructor
      · intro he
        exact absurd he (by simp)
      · intro hk
        exact absurd hk hall
  · rintro ⟨tb, htb, hfail⟩
    unfold flushOutcome
    rw [if_neg]
    intro hall
    rw [List.all_eq_true] at hall
    rw [hall tb htb] at hfail
    cases hfail
  · intro tb rows r hmem hok hr hex
    rcases List.append_of_mem hmem with ⟨l1, l2, rfl⟩
    rw [applyFlushInserts_append, applyFlushInserts_cons]
    have hne : (!rows.isEmpty && ok tb) = true := by
      have : rows ≠ [] := List.ne_nil_of_mem hr
      simp [this, hok]
    rw [if_pos hne]
    apply mem_rowsIn_applyFlushInserts
    exact mem_rowsIn_insertRows_self (exists_name_applyFlushInserts hex l1 ok) hr

/-- Witness for C3: one flush over buckets for tables a and b where the
insert for b fails: the aggregate rejects, yet the row written for a is
present in the destination store. -/
theorem claim_C3_witness :
    flushOutcome [("a", [(⟨1, 1⟩ : Row)]), ("b", [⟨1, 2⟩])] (fun n => n == "a") =
        .error "insert failed" ∧
      (⟨1, 1⟩ : Row) ∈ rowsIn
        (applyFlushInserts [⟨"a", "MergeTree", []⟩, ⟨"b", "MergeTree", []⟩]
          [("a", [⟨1, 1⟩]), ("b", [⟨1, 2⟩])] (fun n => n == "a")) "a" :=
  ⟨(claim_C3_writer_fan_out [("a", [⟨1, 1⟩]), ("b", [⟨1, 2⟩])]
      [⟨"a", "MergeTree", []⟩, ⟨"b", "MergeTree", []⟩] (fun n => n == "a")).2.2.2.1
      ⟨"b", by decide, by decide⟩,
    (claim_C3_writer_fan_out [("a", [⟨1, 1⟩]), ("b", [⟨1, 2⟩])]
      [⟨"a", "MergeTree", []⟩, ⟨"b", "MergeTree", []⟩] (fun n => n == "a")).2.2.2.2
      "a" [⟨1, 1⟩] ⟨1, 1⟩ (by decide) (by decide) (by decide)
      ⟨⟨"a", "MergeTree", []⟩, by decide, rfl⟩⟩

/-- C10: flushBatch swaps in an empty accumulator regardless of how the
inserts fare (the swap precedes any await), the swapped-out records are
never restored on failure, and an immediately following flush with no
intervening accept performs no inserts and succeeds. -/
theorem claim_C10_flush_resets_before_insert (s : AccState) (db : DB)
    (ok : String → Bool) (h : s.count ≠ 0) :
    (flushBatch s db ok).1 = ⟨[], 0⟩ ∧
    (∀ ok2, (flushBatch s db ok2).1 = (flushBatch s db ok).1) ∧
    (∀ db2 ok2, flushBatch ⟨[], 0⟩ db2 ok2 = (⟨[], 0⟩, db2, .ok ())) ∧
    flushBatch (flushBatch s db ok).1 (flushBatch s db ok).2.1 ok =
      ((flushBatch s db ok).1, (flushBatch s db ok).2.1, .ok ()) := by
  have h1 : ∀ ok2 : String → Bool, (flushBatch s db ok2).1 = (⟨[], 0⟩ : AccState) := by
    intro ok2
    unfold flushBatch
    rw [if_neg h]
  have h2 : ∀ (db2 : DB) (ok2 : String → Bool),
      flushBatch ⟨[], 0⟩ db2 ok2 = (⟨[], 0⟩, db2, .ok ()) := by
    intro db2 ok2
    unfold flushBatch
    rw [if_pos rfl]
  refine ⟨h1 ok, fun ok2 => by rw [h1 ok, h1 ok2], h2, ?_⟩
  rw [h1 ok, h2]

/-- Witness for C10: a failed flush of one pending record leaves an empty
accumulator and the follow-up flush is a successful no-op. -/
theorem claim_C10_witness :
    (flushBatch ⟨[("a", [⟨1, 1⟩])], 1⟩ [] (fun _ => false)).1 = ⟨[], 0⟩ ∧
      (∀ db2 ok2, flushBatch ⟨[], 0⟩ db2 ok2 = (⟨[], 0⟩, db2, .ok ())) :=
  ⟨(claim_C10_flush_resets_before_insert ⟨[("a", [⟨1, 1⟩])], 1⟩ [] (fun _ => false)
      (by decide)).1,
    (claim_C10_flush_resets_before_insert ⟨[("a", [⟨1, 1⟩])], 1⟩ [] (fun _ => false)
      (by decide)).2.2.1⟩

/-- Step equation of the writeToClickHouse handler when the new count
reaches the threshold: the awaited flush runs against the updated batch. -/
theorem writeToClickHouse_flush {thr : Nat} {s : AccState} (db : DB)
    (ok : String → Bool) (tb : String) (r : Row) (h : thr ≤ s.count + 1) :
    writeToClickHouse thr s db ok tb r =
      ⟨⟨[], 0⟩, applyFlushInserts db (addToBatch s.batch tb r) ok,
        flushOutcome (addToBatch s.batch tb r) ok, true⟩ := by
  simp [writeToClickHouse, flushBatch, h, Nat.succ_ne_zero]

/-- Step equation of the writeToClickHouse handler below the threshold. -/
theorem writeToClickHouse_noFlush {thr : Nat} {s : AccState} (db : DB)
    (ok : String → Bool) (tb : String) (r : Row) (h : ¬ thr ≤ s.count + 1) :
    writeToClickHouse thr s db ok tb r =
      ⟨⟨addToBatch s.batch tb r, s.count + 1⟩, db, .ok (), false⟩ := by
  simp [writeToClickHouse, h]

theorem runAccepts_cons (thr : Nat) (st : AccState × DB × Nat) (ok : String → Bool)
    (rec : String × Row) (rs : List (String × Row)) :
    runAccepts thr st ok (rec :: rs) =
      runAccepts thr
        ((writeToClickHouse thr st.1 st.2.1 ok rec.1 rec.2).state,
          (writeToClickHouse thr st.1 st.2.1 ok rec.1 rec.2).db,
          st.2.2 + (if (writeToClickHouse thr st.1 st.2.1 ok rec.1 rec.2).flushed
            then 1 else 0)) ok rs := rfl

/-- Counting invariant of the accumulator: driving records through accept
from a count below the threshold leaves count and number of automatic
flushes given by mod and div by the threshold. -/
theorem runAccepts_counts (thr : Nat) (ok : String → Bool) (hthr : 0 < thr) :
    ∀ (rs : List (String × Row)) (s : AccState) (db : DB) (f : Nat),
      s.count < thr →
      (runAccepts thr (s, db, f) ok rs).1.count = (s.count + rs.length) % thr ∧
      (runAccepts thr (s, db, f) ok rs).2.2 = f + (s.count + rs.length) / thr := by
  intro rs
  induction rs with
  | nil =>
    intro s db f hc
    unfold runAccepts
    simp [Nat.mod_eq_of_lt hc, Nat.div_eq_of_lt hc]
  | cons rec rs ih =>
    intro s db f hc
    rw [runAccepts_cons]
    by_cases h : thr ≤ s.count + 1
    · have heq : s.count + 1 = thr := by omega
      rw [writeToClickHouse_flush db ok rec.1 rec.2 h]
      dsimp only
      have hone : f + (if true = true then 1 else 0) = f + 1 := rfl
      rw [hone]
      have hih := ih ⟨[], 0⟩
        (applyFlushInserts db (addToBatch s.batch rec.1 rec.2) ok) (f + 1) hthr
      dsimp only at hih
      have harith : s.count + (rs.length + 1) = thr + rs.length := by omega
      constructor
      · rw [hih.1, List.length_cons, harith, Nat.add_mod_left, Nat.zero_add]
      · rw [hih.2, List.length_cons, harith, Nat.add_div_left _ hthr, Nat.zero_add]
        generalize rs.length / thr = q
        omega
    · rw [writeToClickHouse_noFlush db ok rec.1 rec.2 h]
      dsimp only
      have hzero : f + (if false = true then 1 else 0) = f := rfl
      rw [hzero]
      have hlt : s.count + 1 < thr := by omega
      have hih := ih ⟨addToBatch s.batch rec.1 rec.2, s.count + 1⟩ db f hlt
      dsimp only at hih
      have harith : s.count + 1 + rs.length = s.count + (rs.length + 1) := by omega
      constructor
      · rw [hih.1, List.length_cons, harith]
      · rw [hih.2, List.length_cons, harith]

/-- The record stream of the C5 scenario: n records alternating between
two destination tables. -/
def c5records (n : Nat) : List (String × Row) :=
  (List.range n).map (fun i => (if i % 2 = 0 then "table_a" else "table_b", ⟨1, i⟩))

theorem c5records_length (n : Nat) : (c5records n).length = n := by
  simp [c5records]

theorem c5records_take (m n : Nat) (h : m ≤ n) :
    (c5records n).take m = c5records m := by
  unfold c5records
  rw [← List.map_take, List.take_range, Nat.min_eq_left h]

/-- C5: with threshold 5000, accepting 5001 records spread over two tables
from an empty accumulator triggers exactly one automatic flush — already
performed within the first 5000 accepts, hence before the 5001st record is
accepted — and leaves a pending count of 1. -/
theorem claim_C5_batching_scenario :
    (runAccepts 5000 (⟨[], 0⟩, [], 0) (fun _ => true) (c5records 5001)).2.2 = 1 ∧
    (runAccepts 5000 (⟨[], 0⟩, [], 0) (fun _ => true)
      ((c5records 5001).take 5000)).2.2 = 1 ∧
    (runAccepts 5000 (⟨[], 0⟩, [], 0) (fun _ => true) (c5records 5001)).1.count = 1 := by
  have h1 := runAccepts_counts 5000 (fun _ => true) (by norm_num) (c5records 5001)
    ⟨[], 0⟩ [] 0 (by norm_num)
  have h2 := runAccepts_counts 5000 (fun _ => true) (by norm_num) (c5records 5000)
    ⟨[], 0⟩ [] 0 (by norm_num)
  rw [c5records_length] at h1 h2
  rw [c5records_take 5000 5001 (by norm_num)]
  dsimp only at h1 h2
  exact ⟨h1.2.trans (by norm_num), h2.2.trans (by norm_num), h1.1.trans (by norm_num)⟩

/-- Counterexample to C4 as stated: with flush threshold 2, one pending
record, and a destination whose insert fails, the very next accept
triggers the flush and propagates the insert error to its caller, so
accept can raise. -/
theorem claim_C4_counterexample :
    (writeToClickHouse 2 ⟨[("a", [⟨1, 1⟩])], 1⟩ [] (fun _ => false) "a" ⟨1, 2⟩).result =
      .error "insert failed" := rfl

/-- C4 amended: accept raises only when the accepted record brings the
pending count to the flush threshold and the flush it then awaits fails,
in which case it propagates exactly that flush outcome; otherwise accept
returns without error. -/
theorem claim_C4_accept_raises_only_flush_errors (thr : Nat) (s : AccState)
    (db : DB) (ok : String → Bool) (tb : String) (r : Row) :
    (writeToClickHouse thr s db ok tb r).result = .ok () ∨
    ((writeToClickHouse thr s db ok tb r).flushed = true ∧
      thr ≤ s.count + 1 ∧
      (writeToClickHouse thr s db ok tb r).result =
        flushOutcome (addToBatch s.batch tb r) ok) := by
  by_cases h : thr ≤ s.count + 1
  · right
    rw [writeToClickHouse_flush db ok tb r h]
    exact ⟨rfl, h, rfl⟩
  · left
    rw [writeToClickHouse_noFlush db ok tb r h]

/-- C8: on first-run absence of the expected tables neither watermark
reader raises: the process-store reader maps the undefined-table error
42P01 to an empty mapping and the analytics-store reader returns an empty
mapping when no event tables exist. -/
theorem claim_C8_first_run_tolerated (rows : List (Nat × Nat)) (db : DB)
    (h : getAllEventTables db = []) :
    getPgWatermarks false rows = .ok [] ∧ getClickHouseMaxBlocks db = [] := by
  constructor
  · rfl
  · unfold getClickHouseMaxBlocks allMaxes groupMaxByChain
    rw [h]
    rfl

/-- Witness for C8: a store holding only a non-MergeTree table has no
event tables and both readers return empty mappings. -/
theorem claim_C8_witness :
    getPgWatermarks false [(1, 5)] = .ok [] ∧
      getClickHouseMaxBlocks [⟨"sys", "Log", [⟨1, 3⟩]⟩] = [] :=
  claim_C8_first_run_tolerated [(1, 5)] [⟨"sys", "Log", [⟨1, 3⟩]⟩] (by decide)

/-- C9: a failure of the mandatory startup reconciliation exits the
process with the non-zero code 1, while the periodic interval callback
catches any reconciliation failure, so a periodic failure never propagates
out of the tick. -/
theorem claim_C9_startup_fatal_periodic_swallowed :
    (∀ e, autoInitialize (.error e) = .exited 1 ∧ (1 : Nat) ≠ 0) ∧
    (∀ db2, autoInitialize (.ok db2) = .running) ∧
    (∀ recon, periodicTick recon = .ok ()) := by
  refine ⟨fun e => ⟨rfl, by decide⟩, fun db2 => rfl, fun recon => ?_⟩
  cases recon with
  | ok d => rfl
  | error e => rfl

/-- Witness for C7: a single event table with one orphaned row for chain 1
beyond block 5 is cleaned, and the second call cleans nothing. -/
theorem claim_C7_witness :
    "evt" ∈ tablesToClean [⟨"evt", "MergeTree", [⟨1, 10⟩]⟩] 1 5 ∧
      (∃ t, t ∈ getAllEventTables [⟨"evt", "MergeTree", [⟨1, 10⟩]⟩] ∧
        t.name = "evt" ∧ 0 < orphanCount t 1 5) ∧
      tablesToClean (deleteBlocksAfter [⟨"evt", "MergeTree", [⟨1, 10⟩]⟩] 1 5) 1 5 = [] :=
  ⟨by decide,
    (claim_C7_delete_selective_idempotent [⟨"evt", "MergeTree", [⟨1, 10⟩]⟩] 1 5).1
      "evt" (by decide),
    (claim_C7_delete_selective_idempotent [⟨"evt", "MergeTree", [⟨1, 10⟩]⟩] 1 5).2.1⟩

end Zonder
